import Mathlib

/-!
Verification of the chart-generation scripts of the LATEX_Bakalarka repository.

The numeric code of the scripts is embedded shallowly over exact rationals:
sample times and voltages become `List ℚ`, and each derived quantity of the
scripts (`sign_change_indices`, the interpolated candidates, `actual_crossing`,
`peak_detector`, `xor_sig`) becomes a Lean function translated from the
corresponding Python expression.  The font-resolution logic is embedded over
file names as `List Char`, and the guarded font-registration sections are
embedded with `Except` standing for the Python exception that a library call
may raise.
-/

namespace LatexBakalarka

/-! ## Zero-crossing detection (obrazky/graf_zerocross/makechart.py) -/

/-- `np.where((voltage[:-1] < 0) & (voltage[1:] >= 0))[0]`: the indices `i`
with `voltage[i] < 0` and `voltage[i+1] >= 0`. -/
def sign_change_indices (voltage : List ℚ) : List ℕ :=
  (List.range (voltage.length - 1)).filter
    (fun i => decide (voltage.getD i 0 < 0) && decide (0 ≤ voltage.getD (i + 1) 0))

/-- The interpolated candidate crossing time for one detected index `idx`:
`t_zero = t1 - v1 * (t2 - t1) / (v2 - v1)` when `v2 ≠ v1`, else the degenerate
branch `t1` (the `else: candidates.append(t1)` arm of the script). -/
def interpCandidate (t voltage : List ℚ) (idx : ℕ) : ℚ :=
  let v1 := voltage.getD idx 0
  let v2 := voltage.getD (idx + 1) 0
  let t1 := t.getD idx 0
  let t2 := t.getD (idx + 1) 0
  if v2 ≠ v1 then t1 - v1 * (t2 - t1) / (v2 - v1) else t1

/-- The list `candidates` of the script: one interpolated time per detected
sign-change index. -/
def candidates (t voltage : List ℚ) : List ℚ :=
  (sign_change_indices voltage).map (interpCandidate t voltage)

/-- Index of the first minimiser of `f` over a list (`np.argmin` keeps the
first occurrence of the minimum). -/
def argminL (f : ℚ → ℚ) : List ℚ → ℕ
  | [] => 0
  | x :: xs =>
    match xs with
    | [] => 0
    | y :: ys =>
      if f x ≤ f ((y :: ys).getD (argminL f (y :: ys)) 0) then 0
      else argminL f (y :: ys) + 1

/-- `actual_crossing`: the theoretical crossing `cross` when no sign change is
detected, otherwise the candidate closest to `cross`
(`candidates[np.argmin(np.abs(candidates - cross))]`). -/
def actual_crossing (t voltage : List ℚ) (cross : ℚ) : ℚ :=
  if sign_change_indices voltage = [] then cross
  else (candidates t voltage).getD (argminL (fun c => |c - cross|) (candidates t voltage)) 0

/-! ### Helper lemmas -/

theorem mem_sign_change_indices {voltage : List ℚ} {i : ℕ} :
    i ∈ sign_change_indices voltage ↔
      i + 1 < voltage.length ∧ voltage.getD i 0 < 0 ∧ 0 ≤ voltage.getD (i + 1) 0 := by
  simp only [sign_change_indices, List.mem_filter, List.mem_range, Bool.and_eq_true,
    decide_eq_true_eq]
  constructor
  · rintro ⟨h1, h2, h3⟩
    exact ⟨by omega, h2, h3⟩
  · rintro ⟨h1, h2, h3⟩
    exact ⟨by omega, h2, h3⟩

theorem argminL_lt_length (f : ℚ → ℚ) : ∀ {l : List ℚ}, l ≠ [] → argminL f l < l.length
  | [x], _ => by simp [argminL]
  | x :: y :: ys, _ => by
    have ih := argminL_lt_length f (l := y :: ys) (by simp)
    simp only [argminL]
    split
    · simp
    · simpa using Nat.succ_lt_succ ih

theorem argminL_le (f : ℚ → ℚ) :
    ∀ (l : List ℚ) (k : ℕ), k < l.length → f (l.getD (argminL f l) 0) ≤ f (l.getD k 0)
  | [x], k, hk => by
    have hk0 : k = 0 := by simpa using Nat.lt_one_iff.mp (by simpa using hk)
    subst hk0
    simp [argminL]
  | x :: y :: ys, k, hk => by
    have ih := argminL_le f (y :: ys)
    simp only [argminL]
    split
    · rename_i hle
      cases k with
      | zero => simp
      | succ k =>
        simp only [List.getD_cons_succ, List.getD_cons_zero]
        exact le_trans hle (ih k (by simpa using Nat.lt_of_succ_lt_succ hk))
    · rename_i hlt
      cases k with
      | zero =>
        simp only [List.getD_cons_succ, List.getD_cons_zero]
        exact le_of_lt (lt_of_not_le hlt)
      | succ k =>
        simp only [List.getD_cons_succ]
        exact ih k (by simpa using Nat.lt_of_succ_lt_succ hk)

theorem argminL_first (f : ℚ → ℚ) :
    ∀ (l : List ℚ) (k : ℕ), k < argminL f l → f (l.getD (argminL f l) 0) < f (l.getD k 0)
  | [], k, hk => by simp [argminL] at hk
  | [x], k, hk => by simp [argminL] at hk
  | x :: y :: ys, k, hk => by
    have ih := argminL_first f (y :: ys)
    simp only [argminL] at hk ⊢
    split
    · rename_i hle
      rw [if_pos hle] at hk
      omega
    · rename_i hlt
      rw [if_neg hlt] at hk
      cases k with
      | zero =>
        simp only [List.getD_cons_succ, List.getD_cons_zero]
        exact lt_of_not_le hlt
      | succ k =>
        simp only [List.getD_cons_succ]
        exact ih k (Nat.lt_of_succ_lt_succ hk)

theorem interp_root_algebra (a b u w : ℚ) (hab : b - a ≠ 0) (huw : w - u ≠ 0) :
    a + (b - a) * ((u - a * (w - u) / (b - a)) - u) / (w - u) = 0 := by
  field_simp
  ring

/-! ### Claim theorems for the zero-crossing detector -/

/-- C8: the detector flags index `i` exactly when the signal goes from a
negative sample to a non-negative sample between adjacent positions
(`voltage[i] < 0` and `voltage[i+1] >= 0`); no other adjacent pair is
flagged. -/
theorem sign_change_flags_neg_to_nonneg (voltage : List ℚ) (i : ℕ) :
    i ∈ sign_change_indices voltage ↔
      i + 1 < voltage.length ∧ voltage.getD i 0 < 0 ∧ 0 ≤ voltage.getD (i + 1) 0 :=
  mem_sign_change_indices

/-- C1: at a detected sign change with distinct sample values, the refined
crossing time equals `t[idx] - v[idx]*(t[idx+1]-t[idx])/(v[idx+1]-v[idx])`,
and this value is a root of the linear interpolant through the two samples
whenever the two sample times differ. -/
theorem t_zero_is_linear_interpolation_root (t voltage : List ℚ) (idx : ℕ)
    (h : idx ∈ sign_change_indices voltage)
    (hne : voltage.getD (idx + 1) 0 ≠ voltage.getD idx 0) :
    interpCandidate t voltage idx =
      t.getD idx 0 - voltage.getD idx 0 * (t.getD (idx + 1) 0 - t.getD idx 0) /
        (voltage.getD (idx + 1) 0 - voltage.getD idx 0) ∧
    (t.getD idx 0 ≠ t.getD (idx + 1) 0 →
      voltage.getD idx 0 +
        (voltage.getD (idx + 1) 0 - voltage.getD idx 0) *
          (interpCandidate t voltage idx - t.getD idx 0) /
            (t.getD (idx + 1) 0 - t.getD idx 0) = 0) := by
  have hval : interpCandidate t voltage idx =
      t.getD idx 0 - voltage.getD idx 0 * (t.getD (idx + 1) 0 - t.getD idx 0) /
        (voltage.getD (idx + 1) 0 - voltage.getD idx 0) := by
    simp only [interpCandidate]
    rw [if_pos hne]
  refine ⟨hval, fun ht => ?_⟩
  rw [hval]
  have hsub : voltage.getD (idx + 1) 0 - voltage.getD idx 0 ≠ 0 := sub_ne_zero.mpr hne
  have htsub : t.getD (idx + 1) 0 - t.getD idx 0 ≠ 0 := sub_ne_zero.mpr (Ne.symm ht)
  exact interp_root_algebra (voltage.getD idx 0) (voltage.getD (idx + 1) 0)
    (t.getD idx 0) (t.getD (idx + 1) 0) hsub htsub

/-- Witness for C1 at `t = [0, 1]`, `voltage = [-1, 3]`: the crossing is
`0 - (-1) * 1 / 4 = 1/4`. -/
theorem t_zero_is_linear_interpolation_root_witness :
    interpCandidate [0, 1] [(-1 : ℚ), 3] 0 =
      ([(0 : ℚ), 1]).getD 0 0 - ([(-1 : ℚ), 3]).getD 0 0 *
        (([(0 : ℚ), 1]).getD 1 0 - ([(0 : ℚ), 1]).getD 0 0) /
          (([(-1 : ℚ), 3]).getD 1 0 - ([(-1 : ℚ), 3]).getD 0 0) ∧
    (([(0 : ℚ), 1]).getD 0 0 ≠ ([(0 : ℚ), 1]).getD 1 0 →
      ([(-1 : ℚ), 3]).getD 0 0 +
        (([(-1 : ℚ), 3]).getD 1 0 - ([(-1 : ℚ), 3]).getD 0 0) *
          (interpCandidate [0, 1] [(-1 : ℚ), 3] 0 - ([(0 : ℚ), 1]).getD 0 0) /
            (([(0 : ℚ), 1]).getD 1 0 - ([(0 : ℚ), 1]).getD 0 0) = 0) :=
  t_zero_is_linear_interpolation_root [0, 1] [(-1 : ℚ), 3] 0 (by decide) (by decide)

/-- C9: at every detected sign-change index the denominator
`v[idx+1] - v[idx]` is strictly positive, so the division is well defined and
the degenerate equal-values branch of the script is unreachable: the candidate
always takes the interpolation branch. -/
theorem sign_change_denominator_pos (t voltage : List ℚ) (idx : ℕ)
    (h : idx ∈ sign_change_indices voltage) :
    0 < voltage.getD (idx + 1) 0 - voltage.getD idx 0 ∧
      interpCandidate t voltage idx =
        t.getD idx 0 - voltage.getD idx 0 * (t.getD (idx + 1) 0 - t.getD idx 0) /
          (voltage.getD (idx + 1) 0 - voltage.getD idx 0) := by
  obtain ⟨-, h1, h2⟩ := mem_sign_change_indices.mp h
  have hpos : (0 : ℚ) < voltage.getD (idx + 1) 0 - voltage.getD idx 0 := by linarith
  refine ⟨hpos, ?_⟩
  simp only [interpCandidate]
  rw [if_pos (ne_of_gt (lt_of_lt_of_le h1 h2))]

theorem candidates_ne_nil (t : List ℚ) {voltage : List ℚ}
    (h : sign_change_indices voltage ≠ []) : candidates t voltage ≠ [] := by
  simpa [candidates] using h

theorem actual_crossing_eq_argmin (t voltage : List ℚ) (cross : ℚ)
    (h : sign_change_indices voltage ≠ []) :
    actual_crossing t voltage cross =
      (candidates t voltage).getD (argminL (fun c => |c - cross|) (candidates t voltage)) 0 := by
  simp only [actual_crossing]
  rw [if_neg h]

theorem actual_crossing_mem (t voltage : List ℚ) (cross : ℚ)
    (h : sign_change_indices voltage ≠ []) :
    actual_crossing t voltage cross ∈ candidates t voltage := by
  rw [actual_crossing_eq_argmin t voltage cross h]
  have hlt := argminL_lt_length (fun c => |c - cross|) (candidates_ne_nil t h)
  rw [List.getD_eq_getElem _ _ hlt]
  exact List.getElem_mem hlt

/-- C2: with at least one detected sign change, the reported crossing is the
candidate minimising `|candidate - cross|`, and on ties the first minimiser in
candidate order is chosen (`np.argmin` keeps the first occurrence). -/
theorem actual_crossing_minimizes_distance (t voltage : List ℚ) (cross : ℚ)
    (h : sign_change_indices voltage ≠ []) :
    ∃ j, j < (candidates t voltage).length ∧
      actual_crossing t voltage cross = (candidates t voltage).getD j 0 ∧
      (∀ k, k < (candidates t voltage).length →
        |(candidates t voltage).getD j 0 - cross| ≤
          |(candidates t voltage).getD k 0 - cross|) ∧
      ∀ k, k < j →
        |(candidates t voltage).getD j 0 - cross| <
          |(candidates t voltage).getD k 0 - cross| := by
  refine ⟨argminL (fun c => |c - cross|) (candidates t voltage),
    argminL_lt_length _ (candidates_ne_nil t h),
    actual_crossing_eq_argmin t voltage cross h, fun k hk => ?_, fun k hk => ?_⟩
  · exact argminL_le (fun c => |c - cross|) (candidates t voltage) k hk
  · exact argminL_first (fun c => |c - cross|) (candidates t voltage) k hk

/-- Witness for C2 at `t = [0, 1]`, `voltage = [-1, 3]`, `cross = 0`. -/
theorem actual_crossing_minimizes_distance_witness :
    ∃ j, j < (candidates [0, 1] [(-1 : ℚ), 3]).length ∧
      actual_crossing [0, 1] [(-1 : ℚ), 3] 0 = (candidates [0, 1] [(-1 : ℚ), 3]).getD j 0 ∧
      (∀ k, k < (candidates [0, 1] [(-1 : ℚ), 3]).length →
        |(candidates [0, 1] [(-1 : ℚ), 3]).getD j 0 - 0| ≤
          |(candidates [0, 1] [(-1 : ℚ), 3]).getD k 0 - 0|) ∧
      ∀ k, k < j →
        |(candidates [0, 1] [(-1 : ℚ), 3]).getD j 0 - 0| <
          |(candidates [0, 1] [(-1 : ℚ), 3]).getD k 0 - 0| :=
  actual_crossing_minimizes_distance [0, 1] [(-1 : ℚ), 3] 0 (by decide)

/-- C3: when no adjacent pair goes from a negative to a non-negative sample,
`actual_crossing` silently returns the theoretical crossing unchanged. -/
theorem no_sign_change_returns_theoretical (t voltage : List ℚ) (cross : ℚ)
    (h : ∀ i, i + 1 < voltage.length →
      ¬(voltage.getD i 0 < 0 ∧ 0 ≤ voltage.getD (i + 1) 0)) :
    actual_crossing t voltage cross = cross := by
  have hnil : sign_change_indices voltage = [] := by
    rw [List.eq_nil_iff_forall_not_mem]
    intro i hi
    obtain ⟨h1, h2, h3⟩ := mem_sign_change_indices.mp hi
    exact h i h1 ⟨h2, h3⟩
  simp only [actual_crossing]
  rw [if_pos hnil]

/-- Witness for C3 on the all-positive window `voltage = [1, 2]`. -/
theorem no_sign_change_returns_theoretical_witness :
    actual_crossing [0, 1] [(1 : ℚ), 2] 5 = 5 :=
  no_sign_change_returns_theoretical [0, 1] [(1 : ℚ), 2] 5 (by
    intro i hi
    have h0 : i = 0 := by
      simp only [List.length_cons, List.length_nil] at hi
      omega
    subst h0
    decide)

theorem interp_bounds_algebra (a b u w : ℚ) (ha : a < 0) (hb : 0 ≤ b) (huw : u < w) :
    u < u - a * (w - u) / (b - a) ∧ u - a * (w - u) / (b - a) ≤ w := by
  have hd : (0 : ℚ) < b - a := by linarith
  have hwu : (0 : ℚ) < w - u := by linarith
  have hpos : 0 < -a * (w - u) / (b - a) := div_pos (mul_pos (by linarith) hwu) hd
  have key : -a * (w - u) / (b - a) ≤ w - u := by
    rw [div_le_iff₀ hd]
    nlinarith [mul_nonneg (le_of_lt hwu) hb]
  have h2 : u - a * (w - u) / (b - a) = u + -a * (w - u) / (b - a) := by ring
  rw [h2]
  constructor <;> linarith

theorem candidate_bracket (t voltage : List ℚ) (idx : ℕ)
    (h : idx ∈ sign_change_indices voltage)
    (ht : t.getD idx 0 < t.getD (idx + 1) 0) :
    t.getD idx 0 < interpCandidate t voltage idx ∧
      interpCandidate t voltage idx ≤ t.getD (idx + 1) 0 := by
  obtain ⟨-, h1, h2⟩ := mem_sign_change_indices.mp h
  have hne : voltage.getD (idx + 1) 0 ≠ voltage.getD idx 0 :=
    ne_of_gt (lt_of_lt_of_le h1 h2)
  have hval : interpCandidate t voltage idx =
      t.getD idx 0 - voltage.getD idx 0 * (t.getD (idx + 1) 0 - t.getD idx 0) /
        (voltage.getD (idx + 1) 0 - voltage.getD idx 0) := by
    simp only [interpCandidate]
    rw [if_pos hne]
  rw [hval]
  exact interp_bounds_algebra _ _ _ _ h1 h2 ht

theorem chain_getD_lt {t : List ℚ} (ht : List.Chain' (· < ·) t) {i j : ℕ}
    (hij : i < j) (hj : j < t.length) : t.getD i 0 < t.getD j 0 := by
  have hp := List.chain'_iff_pairwise.mp ht
  rw [List.getD_eq_getElem _ _ (lt_trans hij hj), List.getD_eq_getElem _ _ hj]
  exact List.pairwise_iff_getElem.mp hp i j (lt_trans hij hj) hj hij

theorem chain_getD_le {t : List ℚ} (ht : List.Chain' (· < ·) t) {i j : ℕ}
    (hij : i ≤ j) (hj : j < t.length) : t.getD i 0 ≤ t.getD j 0 := by
  rcases Nat.eq_or_lt_of_le hij with rfl | hlt
  · exact le_refl _
  · exact le_of_lt (chain_getD_lt ht hlt hj)

/-- C10: each interpolated candidate lies in its bracketing sample interval
`(t[idx], t[idx+1]]`, and — for a strictly increasing time axis co-indexed with
the voltages — every candidate and the finally selected actual crossing lie
within the sampled time window `[t[0], t[len-1]]`. -/
theorem crossing_within_window (t voltage : List ℚ) (cross : ℚ) :
    (∀ idx ∈ sign_change_indices voltage,
       t.getD idx 0 < t.getD (idx + 1) 0 →
       t.getD idx 0 < interpCandidate t voltage idx ∧
         interpCandidate t voltage idx ≤ t.getD (idx + 1) 0) ∧
    (t.length = voltage.length → List.Chain' (· < ·) t →
      (∀ c ∈ candidates t voltage,
         t.getD 0 0 ≤ c ∧ c ≤ t.getD (t.length - 1) 0) ∧
      (sign_change_indices voltage ≠ [] →
         t.getD 0 0 ≤ actual_crossing t voltage cross ∧
           actual_crossing t voltage cross ≤ t.getD (t.length - 1) 0)) := by
  have hwin : ∀ (_ : t.length = voltage.length) (_ : List.Chain' (· < ·) t),
      ∀ c ∈ candidates t voltage, t.getD 0 0 ≤ c ∧ c ≤ t.getD (t.length - 1) 0 := by
    intro hlen hchain c hc
    obtain ⟨idx, hidx, rfl⟩ := List.mem_map.mp hc
    obtain ⟨hb, -, -⟩ := mem_sign_change_indices.mp hidx
    have hbt : idx + 1 < t.length := by omega
    have hbr := candidate_bracket t voltage idx hidx
      (chain_getD_lt hchain (Nat.lt_succ_self idx) hbt)
    constructor
    · exact le_trans (chain_getD_le hchain (Nat.zero_le idx) (by omega)) (le_of_lt hbr.1)
    · exact le_trans hbr.2 (chain_getD_le hchain (by omega) (by omega))
  refine ⟨fun idx hidx ht => candidate_bracket t voltage idx hidx ht,
    fun hlen hchain => ⟨hwin hlen hchain, fun hne =>
      hwin hlen hchain _ (actual_crossing_mem t voltage cross hne)⟩⟩

/-- Witness for C10 at `t = [0, 1]`, `voltage = [-1, 3]`, `cross = 0`. -/
theorem crossing_within_window_witness :
    ([(0 : ℚ), 1]).getD 0 0 ≤ actual_crossing [0, 1] [(-1 : ℚ), 3] 0 ∧
      actual_crossing [0, 1] [(-1 : ℚ), 3] 0 ≤
        ([(0 : ℚ), 1]).getD (([(0 : ℚ), 1]).length - 1) 0 :=
  ((crossing_within_window [0, 1] [(-1 : ℚ), 3] 0).2 (by decide)
    (by norm_num [List.chain'_cons])).2 (by decide)

/-- Witness for C9 at `t = [0, 1]`, `voltage = [-1, 3]`. -/
theorem sign_change_denominator_pos_witness :
    0 < ([(-1 : ℚ), 3]).getD 1 0 - ([(-1 : ℚ), 3]).getD 0 0 ∧
      interpCandidate [0, 1] [(-1 : ℚ), 3] 0 =
        ([(0 : ℚ), 1]).getD 0 0 - ([(-1 : ℚ), 3]).getD 0 0 *
          (([(0 : ℚ), 1]).getD 1 0 - ([(0 : ℚ), 1]).getD 0 0) /
            (([(-1 : ℚ), 3]).getD 1 0 - ([(-1 : ℚ), 3]).getD 0 0) :=
  sign_change_denominator_pos [0, 1] [(-1 : ℚ), 3] 0 (by decide)

/-! ## Peak detector (obrazky/OLD_data/graf_peakdetect/peak_detect_chart.py) -/

/-- Tail of the running maximum once the accumulator holds `m`. -/
def maxAccum : ℚ → List ℚ → List ℚ
  | _, [] => []
  | m, x :: xs => max m x :: maxAccum (max m x) xs

/-- `np.maximum.accumulate(voltage)`: the peak-detector output, the running
maximum of the input signal. -/
def peak_detector : List ℚ → List ℚ
  | [] => []
  | x :: xs => x :: maxAccum x xs

theorem maxAccum_getElem? :
    ∀ (xs : List ℚ) (m : ℚ) (i : ℕ),
      (maxAccum m xs)[i]? =
        if i < xs.length then some ((xs.take (i + 1)).foldl max m) else none
  | [], m, i => by simp [maxAccum]
  | y :: ys, m, 0 => by simp [maxAccum]
  | y :: ys, m, i + 1 => by
    have ih := maxAccum_getElem? ys (max m y) i
    simp only [maxAccum, List.getElem?_cons_succ, ih, List.length_cons,
      List.take_succ_cons, List.foldl_cons]
    rcases Nat.lt_or_ge i ys.length with h | h
    · rw [if_pos h, if_pos (by omega)]
    · rw [if_neg (by omega), if_neg (by omega)]

theorem chain_maxAccum : ∀ (xs : List ℚ) (m : ℚ), List.Chain (· ≤ ·) m (maxAccum m xs)
  | [], _ => List.Chain.nil
  | y :: ys, m => by
    simp only [maxAccum]
    exact List.Chain.cons (le_max_left m y) (chain_maxAccum ys (max m y))

theorem chain'_peak_detector (v : List ℚ) : List.Chain' (· ≤ ·) (peak_detector v) := by
  cases v with
  | nil => simp [peak_detector]
  | cons x xs => exact chain_maxAccum xs x

/-- C4: at every in-range index the peak-detector output equals the true
prefix maximum of the input, and the output sequence is non-decreasing. -/
theorem peak_detector_prefix_max (v : List ℚ) :
    (∀ i, i < v.length → (peak_detector v)[i]? = (v.take (i + 1)).max?) ∧
      List.Chain' (· ≤ ·) (peak_detector v) := by
  refine ⟨fun i hi => ?_, chain'_peak_detector v⟩
  cases v with
  | nil => simp at hi
  | cons x xs =>
    cases i with
    | zero => simp [peak_detector, List.max?_cons]
    | succ i =>
      have hi' : i < xs.length := by
        simp only [List.length_cons] at hi
        omega
      simp only [peak_detector, List.getElem?_cons_succ, List.take_succ_cons]
      rw [maxAccum_getElem? xs x i, if_pos hi']
      rfl

/-- Witness for C4 on `v = [2, 1, 3]` (output `[2, 2, 3]`). -/
theorem peak_detector_prefix_max_witness :
    (peak_detector [2, 1, 3])[1]? = (([(2 : ℚ), 1, 3]).take 2).max? ∧
      List.Chain' (· ≤ ·) (peak_detector [2, 1, 3]) :=
  ⟨(peak_detector_prefix_max [2, 1, 3]).1 1 (by decide),
    (peak_detector_prefix_max [2, 1, 3]).2⟩

/-! ## XOR signal derivation (obrazky/OLD_data/graf_zerocross/makec.py) -/

/-- `np.logical_xor(sq1 > 1.65, sq2 > 1.65)`: elementwise XOR of the two
thresholded square waves (`1.65 = 33/20`). -/
def xor_bool (sq1 sq2 : List ℚ) : List Bool :=
  List.zipWith (fun a b => Bool.xor (decide (33 / 20 < a)) (decide (33 / 20 < b))) sq1 sq2

/-- `np.where(xor_bool, 3.3, 0)`: XOR mapped back to the voltage levels
`3.3 = 33/10` (true) and `0` (false). -/
def xor_sig (sq1 sq2 : List ℚ) : List ℚ :=
  (xor_bool sq1 sq2).map (fun b => if b then 33 / 10 else 0)

/-- C5: for square-wave inputs valued in `{0, 3.3}`, every element of the
derived XOR signal is the logical XOR of the two thresholded booleans
(`value > 1.65`), mapped to `3.3` when true and `0` when false. -/
theorem xor_sig_elementwise (sq1 sq2 : List ℚ)
    (hv1 : ∀ x ∈ sq1, x = 0 ∨ x = 33 / 10) (hv2 : ∀ x ∈ sq2, x = 0 ∨ x = 33 / 10)
    (i : ℕ) (hi1 : i < sq1.length) (hi2 : i < sq2.length) :
    (xor_sig sq1 sq2).getD i 0 =
      if Bool.xor (decide (33 / 20 < sq1.getD i 0)) (decide (33 / 20 < sq2.getD i 0))
      then 33 / 10 else 0 := by
  have hlen : i < (xor_bool sq1 sq2).length := by
    simp [xor_bool, List.length_zipWith]
    omega
  have hlen' : i < (xor_sig sq1 sq2).length := by
    simpa [xor_sig] using hlen
  rw [List.getD_eq_getElem _ _ hlen', List.getD_eq_getElem _ _ hi1,
    List.getD_eq_getElem _ _ hi2]
  simp only [xor_sig, List.getElem_map, xor_bool, List.getElem_zipWith]

/-- Witness for C5 at `sq1 = [0, 3.3]`, `sq2 = [3.3, 3.3]`, index `0`. -/
theorem xor_sig_elementwise_witness :
    (xor_sig [0, 33 / 10] [33 / 10, 33 / 10]).getD 0 0 =
      if Bool.xor (decide ((33 : ℚ) / 20 < ([(0 : ℚ), 33 / 10]).getD 0 0))
          (decide ((33 : ℚ) / 20 < ([(33 : ℚ) / 10, 33 / 10]).getD 0 0))
      then 33 / 10 else 0 :=
  xor_sig_elementwise [0, 33 / 10] [33 / 10, 33 / 10]
    (by simp [List.forall_mem_cons]) (by simp [List.forall_mem_cons])
    0 (by decide) (by decide)

/-! ## Font resolution

File names are embedded as `List Char`.  `occursIn` is Python's substring
test `sub in s`, `toLowerCL` is `s.lower()`, and the two resolvers of the
repository are translated separately: `found_file` (makechart.py and makec.py)
and `found_path` (peak_detect_chart.py). -/

/-- `sub` occurs at the start of `s`. -/
def startsWithCL : List Char → List Char → Bool
  | [], _ => true
  | _ :: _, [] => false
  | a :: as, b :: bs => a == b && startsWithCL as bs

/-- Python's `sub in s`: `sub` occurs contiguously somewhere in `s`. -/
def occursIn (sub : List Char) : List Char → Bool
  | [] => startsWithCL sub []
  | c :: rest => startsWithCL sub (c :: rest) || occursIn sub rest

/-- `s.lower()` on a filename. -/
def toLowerCL (s : List Char) : List Char := s.map Char.toLower

/-- `suf` occurs at the end of `s`. -/
def endsWithCL (suf s : List Char) : Bool := startsWithCL suf.reverse s.reverse

def boldStr : String := "bold"

def italicStr : String := "italic"

def obliqueStr : String := "oblique"

def ttfExt : String := ".ttf"

def otfExt : String := ".otf"

def monospaceStr : String := "monospace"

def sansSerifStr : String := "sans-serif"

/-- The `rglob("*.[ot]tf")` pattern of the zerocross scripts: the name ends in
`.ttf` or `.otf`. -/
def isFontFile (name : List Char) : Bool :=
  endsWithCL ttfExt.data name || endsWithCL otfExt.data name

/-- One directory pass of `found_file` (makechart.py, makec.py): the first
`.ttf`/`.otf` file whose lower-cased name contains the lower-cased target;
only names containing neither "bold" nor "italic" are accepted, all other
names are skipped. -/
def findInDir (target : List Char) : List (List Char) → Option (List Char)
  | [] => none
  | f :: rest =>
    if isFontFile f then
      if occursIn (toLowerCL target) (toLowerCL f) then
        if !occursIn boldStr.data (toLowerCL f) && !occursIn italicStr.data (toLowerCL f)
        then some f
        else findInDir target rest
      else findInDir target rest
    else findInDir target rest

/-- `found_file`: the first per-directory match over the search directories in
priority order. -/
def found_file (target : List Char) : List (List (List Char)) → Option (List Char)
  | [] => none
  | d :: rest =>
    match findInDir target d with
    | some f => some f
    | none => found_file target rest

/-- `font_name.lower().replace(" ", "")` (peak_detect_chart.py). -/
def targetClean (s : List Char) : List Char :=
  (toLowerCL s).filter (fun c => c != ' ')

/-- `basename.lower().replace("-", "").replace("_", "")`. -/
def nameClean (s : List Char) : List Char :=
  (toLowerCL s).filter (fun c => c != '-' && c != '_')

/-- The candidate-collection loop of peak_detect_chart.py. -/
def fontCandidates (target : List Char) (fonts : List (List Char)) : List (List Char) :=
  fonts.filter (fun p => occursIn (targetClean target) (nameClean p))

/-- First-pass test of the selection: neither "italic" nor "bold" nor
"oblique" in the lower-cased name. -/
def isCleanVariant (p : List Char) : Bool :=
  !occursIn italicStr.data (toLowerCL p) && !occursIn boldStr.data (toLowerCL p) &&
    !occursIn obliqueStr.data (toLowerCL p)

/-- `found_path` (peak_detect_chart.py): the first clean candidate if one
exists, otherwise the first candidate of any kind, otherwise none. -/
def found_path (target : List Char) (fonts : List (List Char)) : Option (List Char) :=
  match (fontCandidates target fonts).find? isCleanVariant with
  | some p => some p
  | none => (fontCandidates target fonts).head?

/-! ## Guarded font registration -/

def errorLoadMsg : List Char := ("Error loading font file: ").data

def warnNotFoundMsg : List Char :=
  ("WARNING: Could not find a matching file. Using Monospace fallback.").data

def successMsg : List Char := ("SUCCESS: Loaded font.").data

def fontWarnMsg : List Char := ("Font warning: ").data

/-- The guarded font-loading section of makechart.py / makec.py.  `register`
models `fontManager.addfont` plus `FontProperties(...).get_name()`: it either
returns the internal font name or raises (`Except.error`).  The result is the
font family finally written to `rcParams` together with the messages printed
to standard output. -/
def fontSectionZ (found : Option (List Char))
    (register : List Char → Except (List Char) (List Char)) :
    List Char × List (List Char) :=
  match found with
  | none => (monospaceStr.data, [warnNotFoundMsg])
  | some f =>
    match register f with
    | Except.ok internal => (internal, [successMsg])
    | Except.error e => (monospaceStr.data, [errorLoadMsg ++ e, warnNotFoundMsg])

/-- The guarded font block of peak_detect_chart.py: the whole lookup runs
inside `try`, so `attempt` models the try-body result (the chosen family on
success); any raised exception is caught and yields the sans-serif fallback
plus a warning naming the exception. -/
def fontSectionP (attempt : Except (List Char) (List Char)) :
    List Char × List (List Char) :=
  match attempt with
  | Except.ok fam => (fam, [])
  | Except.error e => (sansSerifStr.data, [fontWarnMsg ++ e])

/-- The tail of the try-body of peak_detect_chart.py after candidate
selection: with a found path, register it and use its internal name
(`register` may raise); with no found path, print the warning and select the
sans-serif fallback family. -/
def fontTryBodyP (found : Option (List Char))
    (register : List Char → Except (List Char) (List Char)) :
    Except (List Char) (List Char) :=
  match found with
  | some p => register p
  | none => Except.ok sansSerifStr.data

theorem findInDir_some {target f : List Char} :
    ∀ {d : List (List Char)}, findInDir target d = some f →
      f ∈ d ∧ isFontFile f = true ∧
        occursIn (toLowerCL target) (toLowerCL f) = true ∧
        occursIn boldStr.data (toLowerCL f) = false ∧
        occursIn italicStr.data (toLowerCL f) = false
  | [], h => by simp [findInDir] at h
  | g :: rest, h => by
    by_cases h1 : isFontFile g
    · by_cases h2 : occursIn (toLowerCL target) (toLowerCL g)
      · by_cases h3 : !occursIn boldStr.data (toLowerCL g) &&
            !occursIn italicStr.data (toLowerCL g)
        · rw [findInDir, if_pos h1, if_pos h2, if_pos h3] at h
          obtain rfl : g = f := by injection h
          simp only [Bool.and_eq_true, Bool.not_eq_true'] at h3
          exact ⟨List.mem_cons_self g rest, h1, h2, h3.1, h3.2⟩
        · rw [findInDir, if_pos h1, if_pos h2, if_neg h3] at h
          obtain ⟨hm, hrest⟩ := findInDir_some h
          exact ⟨List.mem_cons_of_mem g hm, hrest⟩
      · rw [findInDir, if_pos h1, if_neg h2] at h
        obtain ⟨hm, hrest⟩ := findInDir_some h
        exact ⟨List.mem_cons_of_mem g hm, hrest⟩
    · rw [findInDir, if_neg h1] at h
      obtain ⟨hm, hrest⟩ := findInDir_some h
      exact ⟨List.mem_cons_of_mem g hm, hrest⟩

theorem found_file_some {target f : List Char} :
    ∀ {dirs : List (List (List Char))}, found_file target dirs = some f →
      ∃ d ∈ dirs, f ∈ d ∧ isFontFile f = true ∧
        occursIn (toLowerCL target) (toLowerCL f) = true ∧
        occursIn boldStr.data (toLowerCL f) = false ∧
        occursIn italicStr.data (toLowerCL f) = false
  | [], h => by simp [found_file] at h
  | d :: rest, h => by
    rw [found_file] at h
    cases hd : findInDir target d with
    | some g =>
      rw [hd] at h
      obtain rfl : g = f := by injection h
      exact ⟨d, List.mem_cons_self d rest, findInDir_some hd⟩
    | none =>
      rw [hd] at h
      obtain ⟨d', hd', hrest⟩ := found_file_some h
      exact ⟨d', List.mem_cons_of_mem d hd', hrest⟩

/-- C6 counterexample: with target "foo" and a single directory containing
only "foobold.ttf" — a file that matches the target substring and the
extension pattern but is a bold variant — `found_file` returns `none` rather
than the first (bold) match the claim requires. -/
theorem found_file_bold_only_returns_none :
    found_file (("foo").data) [[("foobold.ttf").data]] = none ∧
      isFontFile (("foobold.ttf").data) = true ∧
      occursIn (toLowerCL (("foo").data)) (toLowerCL (("foobold.ttf").data)) = true := by
  refine ⟨?_, ?_, ?_⟩ <;> decide

/-- C6 (amended): the peak-detect resolver `found_path` behaves as the claim
states — a clean (non-bold/non-italic/non-oblique) candidate is returned
whenever one exists; with candidates but no clean one, exactly the first
candidate `candidates[0]` (even bold/italic) is returned; with no match it
returns `none` and the sans-serif fallback family is selected.  The zerocross
resolver `found_file` excludes bold/italic unconditionally: any returned file
matches the target, has a font extension and contains neither "bold" nor
"italic", and when it returns `none` the monospace fallback family is
selected. -/
theorem font_resolver_selection (target : List Char) (fonts : List (List Char))
    (dirs : List (List (List Char)))
    (register : List Char → Except (List Char) (List Char)) :
    ((∃ p ∈ fontCandidates target fonts, isCleanVariant p = true) →
      ∃ p, found_path target fonts = some p ∧ p ∈ fontCandidates target fonts ∧
        isCleanVariant p = true) ∧
    (fontCandidates target fonts ≠ [] →
      ∃ p, found_path target fonts = some p ∧ p ∈ fontCandidates target fonts) ∧
    (∀ hne : fontCandidates target fonts ≠ [],
      (∀ p ∈ fontCandidates target fonts, isCleanVariant p = false) →
      found_path target fonts = some ((fontCandidates target fonts).head hne)) ∧
    (fontCandidates target fonts = [] →
      found_path target fonts = none ∧
        (fontSectionP (fontTryBodyP (found_path target fonts) register)).1 =
          sansSerifStr.data) ∧
    (∀ f, found_file target dirs = some f →
      ∃ d ∈ dirs, f ∈ d ∧ isFontFile f = true ∧
        occursIn (toLowerCL target) (toLowerCL f) = true ∧
        occursIn boldStr.data (toLowerCL f) = false ∧
        occursIn italicStr.data (toLowerCL f) = false) ∧
    (found_file target dirs = none →
      (fontSectionZ (found_file target dirs) register).1 = monospaceStr.data) := by
  refine ⟨?_, ?_, ?_, ?_, fun f hf => found_file_some hf, fun hn => ?_⟩
  · rintro ⟨p, hp, hc⟩
    have hs : ((fontCandidates target fonts).find? isCleanVariant).isSome :=
      List.find?_isSome.mpr ⟨p, hp, hc⟩
    obtain ⟨q, hq⟩ := Option.isSome_iff_exists.mp hs
    exact ⟨q, by simp only [found_path, hq], List.mem_of_find?_eq_some hq,
      List.find?_some hq⟩
  · intro hne
    cases hq : (fontCandidates target fonts).find? isCleanVariant with
    | some q =>
      exact ⟨q, by simp only [found_path, hq], List.mem_of_find?_eq_some hq⟩
    | none =>
      refine ⟨(fontCandidates target fonts).head hne, ?_, List.head_mem hne⟩
      simp only [found_path, hq]
      exact List.head?_eq_head hne
  · intro hne hnoclean
    have hq : (fontCandidates target fonts).find? isCleanVariant = none :=
      List.find?_eq_none.mpr (fun p hp => by simp [hnoclean p hp])
    simp only [found_path, hq]
    exact List.head?_eq_head hne
  · intro hnil
    have hp : found_path target fonts = none := by simp [found_path, hnil]
    refine ⟨hp, ?_⟩
    rw [hp]
    rfl
  · rw [hn]
    rfl

/-- Witness for the amended C6: target "foo" over the font list
`["foobold.ttf", "foo.ttf"]` (a bold match and a clean match) yields a clean
match from `found_path`. -/
theorem font_resolver_selection_witness :
    ∃ p, found_path (("foo").data) [("foobold.ttf").data, ("foo.ttf").data] = some p ∧
      p ∈ fontCandidates (("foo").data) [("foobold.ttf").data, ("foo.ttf").data] ∧
      isCleanVariant p = true :=
  (font_resolver_selection (("foo").data)
    [("foobold.ttf").data, ("foo.ttf").data] [] (fun f => Except.ok f)).1
    ⟨("foo.ttf").data, by decide, by decide⟩

/-- C7: any exception raised during font registration is caught: the script
prints a message naming the exception, falls back to the generic font family
(monospace in the zerocross scripts, sans-serif in the peak-detect script),
and — both section models being total functions — execution continues past
the font-handling section. -/
theorem font_registration_errors_caught (found : Option (List Char))
    (register : List Char → Except (List Char) (List Char))
    (f e : List Char) (attempt : Except (List Char) (List Char)) (e2 : List Char) :
    (found = some f → register f = Except.error e →
      (fontSectionZ found register).1 = monospaceStr.data ∧
        (errorLoadMsg ++ e) ∈ (fontSectionZ found register).2) ∧
    (attempt = Except.error e2 →
      (fontSectionP attempt).1 = sansSerifStr.data ∧
        (fontWarnMsg ++ e2) ∈ (fontSectionP attempt).2) := by
  constructor
  · rintro rfl hreg
    simp [fontSectionZ, hreg]
  · rintro rfl
    simp [fontSectionP]

/-- Witness for C7 with a registration that raises "boom". -/
theorem font_registration_errors_caught_witness :
    (fontSectionZ (some (("f.ttf").data))
        (fun _ => Except.error (("boom").data))).1 = monospaceStr.data ∧
      (errorLoadMsg ++ ("boom").data) ∈
        (fontSectionZ (some (("f.ttf").data))
          (fun _ => Except.error (("boom").data))).2 :=
  (font_registration_errors_caught (some (("f.ttf").data))
    (fun _ => Except.error (("boom").data)) (("f.ttf").data) (("boom").data)
    (Except.error (("boom").data)) (("boom").data)).1 rfl rfl

end LatexBakalarka
